import Mathlib

/-!
# hanconfig: the Hancitor configuration extractor

A shallow embedding of `hanconfig.go` and of the standard-library routines it
calls (`crypto/rc4`, `crypto/sha1`, `bytes.Trim`, `strings.Split`,
`strings.ReplaceAll`, `encoding/json`), followed by theorems about the
extraction pipeline of `main`.

Bytes are natural numbers; every arithmetic step that wraps in Go carries an
explicit `% 256` or `% 2 ^ 32`.  A Go `string` is its sequence of bytes.
-/

namespace Hanconfig

/-! ## Aborted runs -/

/-- The named error kinds of the specification's taxonomy. -/
inductive ErrorKind where
  | MalformedSample
  | TruncatedConfig
  | IoFailure
  deriving DecidableEq, Repr

/-- A Go `error` value handed back by a library call, known by its message
(`EOF`, `unexpected EOF`, ...). -/
structure GoError where
  msg : String
  deriving DecidableEq, Repr

/-- How a run stops without completing.  `hanconfig.go` has one mechanism only,
an unrecovered `panic`: raised by `check` on a library error, or by the Go
run time on a bad slice expression or a nil receiver.  `named` is a typed error
value of one of the kinds of the specification; no path of the program
produces it. -/
inductive Abort where
  /-- `panic(e)` from `check`, with `e = rc4.KeySizeError(k)`. -/
  | keySizeError (k : Nat)
  /-- `panic(e)` from `check`, with `e` the error returned by `Section.Data`. -/
  | dataError (e : GoError)
  /-- Run-time error: invalid memory address or nil pointer dereference. -/
  | nilDereference
  /-- Run-time error: slice bounds out of range `[:hi]` with capacity `cap`. -/
  | sliceBoundsCap (hi cap : Nat)
  /-- Run-time error: slice bounds out of range `[lo:hi]`. -/
  | sliceBoundsOrder (lo hi : Nat)
  /-- A typed error of a named kind. -/
  | named (k : ErrorKind)
  deriving DecidableEq, Repr

/-- Equality of outcomes is decidable. -/
instance decEqExcept {ε α : Type} [DecidableEq ε] [DecidableEq α] : DecidableEq (Except ε α)
  | .ok a, .ok b =>
    if h : a = b then isTrue (congrArg Except.ok h)
    else isFalse (fun h2 => h (Except.ok.inj h2))
  | .error a, .error b =>
    if h : a = b then isTrue (congrArg Except.error h)
    else isFalse (fun h2 => h (Except.error.inj h2))
  | .ok _, .error _ => isFalse (fun h => Except.noConfusion h)
  | .error _, .ok _ => isFalse (fun h => Except.noConfusion h)

/-- Whether the abort is a raw run-time bounds fault. -/
def Abort.isSliceBounds : Abort → Bool
  | .sliceBoundsCap _ _ => true
  | .sliceBoundsOrder _ _ => true
  | _ => false

/-- The function `check`: panic on a non-nil error. -/
def check {ε : Type} (toAbort : ε → Abort) : Option ε → Except Abort Unit
  | none => .ok ()
  | some e => .error (toAbort e)

/-! ## Byte slices -/

/-- A Go `[]byte`: the elements below `len`, and the elements of the backing
array from `len` up to `cap`, which a slice expression can bring back. -/
structure ByteSlice where
  bytes : List Nat
  spare : List Nat
  deriving DecidableEq, Repr

namespace ByteSlice

/-- The nil slice. -/
def nil : ByteSlice := ⟨[], []⟩

/-- A freshly made slice, `len = cap`. -/
def ofList (l : List Nat) : ByteSlice := ⟨l, []⟩

def len (s : ByteSlice) : Nat := s.bytes.length

def cap (s : ByteSlice) : Nat := s.bytes.length + s.spare.length

/-- The slice expression `s[lo:hi]`: the run time checks `hi ≤ cap(s)` and then
`lo ≤ hi`. -/
def slice (s : ByteSlice) (lo hi : Nat) : Except Abort ByteSlice :=
  if s.cap < hi then .error (.sliceBoundsCap hi s.cap)
  else if hi < lo then .error (.sliceBoundsOrder lo hi)
  else .ok ⟨((s.bytes ++ s.spare).drop lo).take (hi - lo), (s.bytes ++ s.spare).drop hi⟩

/-- The slice expression `s[lo:]`, whose upper bound is `len(s)`. -/
def sliceFrom (s : ByteSlice) (lo : Nat) : Except Abort ByteSlice :=
  if s.len < lo then .error (.sliceBoundsOrder lo s.len)
  else .ok ⟨s.bytes.drop lo, s.spare⟩

end ByteSlice

/-- The loop of `trimRightByte`: `for len(s) > 0 && s[len(s)-1] == c { s = s[:len(s)-1] }`.
The bytes cut off stay in the backing array. -/
def trimRightByte (s : ByteSlice) (c : Nat) : ByteSlice :=
  let kept := s.bytes.rdropWhile (fun b => b == c)
  ⟨kept, s.bytes.drop kept.length ++ s.spare⟩

/-- The function `trimLeftByte`: `for len(s) > 0 && s[0] == c { s = s[1:] }`, and
nil when nothing is left. -/
def trimLeftByte (s : ByteSlice) (c : Nat) : ByteSlice :=
  let kept := s.bytes.dropWhile (fun b => b == c)
  if kept.length = 0 then ByteSlice.nil else ⟨kept, s.spare⟩

/-- The call `bytes.Trim(s, cutset)` for a cutset of the single ASCII byte `c`:
nil for an empty `s`, otherwise `trimLeftByte(trimRightByte(s, c), c)`. -/
def bytesTrim (s : ByteSlice) (c : Nat) : ByteSlice :=
  if s.len = 0 then ByteSlice.nil else trimLeftByte (trimRightByte s c) c

/-! ## crypto/rc4 -/

/-- The type `rc4.Cipher`: `s [256]uint32; i, j uint8`. -/
structure Cipher where
  s : List Nat
  i : Nat
  j : Nat
  deriving DecidableEq, Repr

/-- One round of the key schedule in `rc4.NewCipher`:
`j += uint8(c.s[i]) + key[i%k]; c.s[i], c.s[j] = c.s[j], c.s[i]`. -/
def ksaRound (key : List Nat) (st : List Nat × Nat) (i : Nat) : List Nat × Nat :=
  let j := (st.2 + (st.1.getD i 0 % 256 + key.getD (i % key.length) 0) % 256) % 256
  let si := st.1.getD i 0
  let sj := st.1.getD j 0
  ((st.1.set i sj).set j si, j)

/-- The function `rc4.NewCipher`: a key of fewer than 1 or more than 256 bytes is
refused with `KeySizeError(len(key))`. -/
def NewCipher (key : List Nat) : Except Nat Cipher :=
  let k := key.length
  if k < 1 ∨ 256 < k then .error k
  else
    let st := (List.range 256).foldl (ksaRound key) (List.range 256, 0)
    .ok ⟨st.1, 0, 0⟩

/-- One iteration of the loop of `XORKeyStream` on the cipher state: the new
state and the key-stream byte `uint8(c.s[uint8(x+y)])`. -/
def Cipher.next (c : Cipher) : Cipher × Nat :=
  let i := (c.i + 1) % 256
  let x := c.s.getD i 0
  let j := (c.j + x % 256) % 256
  let y := c.s.getD j 0
  let s := (c.s.set i y).set j x
  (⟨s, i, j⟩, s.getD ((x + y) % 2 ^ 32 % 256) 0 % 256)

/-- The method `XORKeyStream(dst, src)` with `dst` and `src` the same buffer:
`dst[k] = v ^ uint8(c.s[uint8(x+y)])` for each byte `v` in turn. -/
def XORKeyStream (c : Cipher) : List Nat → List Nat
  | [] => []
  | v :: vs => (v ^^^ c.next.2) :: XORKeyStream c.next.1 vs

/-- The function `rc4decrypt` on plain byte sequences. -/
def rc4decrypt (extkey : List Nat) (data : List Nat) : Except Abort (List Nat) :=
  match NewCipher extkey with
  | .error k => (check Abort.keySizeError (some k)).bind (fun _ => .ok data)
  | .ok cipher => (check Abort.keySizeError none).bind (fun _ => .ok (XORKeyStream cipher data))

/-- The function `rc4decrypt` on a slice: the buffer is overwritten in place and
returned, so length and capacity are those of the argument. -/
def rc4decryptSlice (extkey : List Nat) (data : ByteSlice) : Except Abort ByteSlice :=
  (rc4decrypt extkey data.bytes).map (fun out => ⟨out, data.spare⟩)

/-! ## crypto/sha1 -/

/-- The 32-bit left rotation `bits.RotateLeft32`. -/
def rotl32 (x n : Nat) : Nat := ((x <<< n) ||| (x >>> (32 - n))) % 2 ^ 32

/-- Big-endian bytes of a 32-bit word, as `binary.BigEndian.PutUint32`. -/
def putUint32 (w : Nat) : List Nat :=
  [w / 2 ^ 24 % 256, w / 2 ^ 16 % 256, w / 2 ^ 8 % 256, w % 256]

/-- Big-endian bytes of a 64-bit word, as `binary.BigEndian.PutUint64`. -/
def putUint64 (w : Nat) : List Nat :=
  putUint32 (w / 2 ^ 32 % 2 ^ 32) ++ putUint32 (w % 2 ^ 32)

/-- The padding written by `checkSum`: `0x80`, zero bytes up to 56 modulo 64,
then the message length in bits as 8 big-endian bytes. -/
def sha1Pad (len : Nat) : List Nat :=
  let t := if len % 64 < 56 then 56 - len % 64 else 64 + 56 - len % 64
  (0x80 :: List.replicate (t - 1) 0) ++ putUint64 (len * 8 % 2 ^ 64)

/-- The 16 big-endian words of a 64-byte chunk. -/
def sha1Words (p : List Nat) : List Nat :=
  (List.range 16).map fun i =>
    (p.getD (4 * i) 0 % 256) * 2 ^ 24 + (p.getD (4 * i + 1) 0 % 256) * 2 ^ 16
      + (p.getD (4 * i + 2) 0 % 256) * 2 ^ 8 + p.getD (4 * i + 3) 0 % 256

/-- The five chaining words `h0 .. h4`, and inside a block `a .. e`. -/
structure Sha1State where
  a : Nat
  b : Nat
  c : Nat
  d : Nat
  e : Nat
  deriving DecidableEq, Repr

/-- The initial values `init0 .. init4`. -/
def sha1Init : Sha1State := ⟨0x67452301, 0xEFCDAB89, 0x98BADCFE, 0x10325476, 0xC3D2E1F0⟩

/-- Round `i` of `blockGeneric` on the 16-word window `w`: from round 16 on the
window slot `i & 0xf` is first replaced by
`rotl1 (w[(i-3)&0xf] ^ w[(i-8)&0xf] ^ w[(i-14)&0xf] ^ w[i&0xf])`. -/
def sha1Round (st : List Nat × Sha1State) (i : Nat) : List Nat × Sha1State :=
  let w := st.1
  let s := st.2
  let w := if i < 16 then w else
    w.set (i % 16) (rotl32 (w.getD ((i - 3) % 16) 0 ^^^ w.getD ((i - 8) % 16) 0
      ^^^ w.getD ((i - 14) % 16) 0 ^^^ w.getD (i % 16) 0) 1)
  let f := if i < 20 then (s.b &&& s.c) ||| ((s.b ^^^ 0xFFFFFFFF) &&& s.d)
    else if i < 40 then s.b ^^^ s.c ^^^ s.d
    else if i < 60 then ((s.b ||| s.c) &&& s.d) ||| (s.b &&& s.c)
    else s.b ^^^ s.c ^^^ s.d
  let k := if i < 20 then 0x5A827999 else if i < 40 then 0x6ED9EBA1
    else if i < 60 then 0x8F1BBCDC else 0xCA62C1D6
  let t := (rotl32 s.a 5 + f + s.e + w.getD (i % 16) 0 + k) % 2 ^ 32
  (w, ⟨t, s.a, rotl32 s.b 30, s.c, s.d⟩)

/-- The body of `blockGeneric` for one 64-byte chunk. -/
def sha1Block (h : Sha1State) (p : List Nat) : Sha1State :=
  let r := ((List.range 80).foldl sha1Round (sha1Words p, h)).2
  ⟨(h.a + r.a) % 2 ^ 32, (h.b + r.b) % 2 ^ 32, (h.c + r.c) % 2 ^ 32,
    (h.d + r.d) % 2 ^ 32, (h.e + r.e) % 2 ^ 32⟩

/-- The function `blockGeneric` over `n` consecutive 64-byte chunks. -/
def sha1Blocks : Nat → Sha1State → List Nat → Sha1State
  | 0, h, _ => h
  | n + 1, h, p => sha1Blocks n (sha1Block h (p.take 64)) (p.drop 64)

/-- The function `sha1.Sum`: the 20-byte digest of `data`. -/
def sha1Sum (data : List Nat) : List Nat :=
  let m := data ++ sha1Pad data.length
  let h := sha1Blocks (m.length / 64) sha1Init m
  putUint32 h.a ++ putUint32 h.b ++ putUint32 h.c ++ putUint32 h.d ++ putUint32 h.e

/-! ## strings.Split and removeEmptyStrings -/

/-- The loop of `genSplit` for a one-byte separator, `n` rounds at most:
`m := Index(s, sep); if m < 0 { break }; a[i] = s[:m]; s = s[m+1:]`, and after
the loop `a[i] = s`. -/
def genSplitLoop (sep : Nat) : Nat → List Nat → List (List Nat)
  | 0, s => [s]
  | n + 1, s =>
    if sep ∈ s then
      s.takeWhile (fun b => b != sep) :: genSplitLoop sep n ((s.dropWhile (fun b => b != sep)).drop 1)
    else [s]

/-- The call `strings.Split(s, sep)` for a one-byte separator: `genSplit` with
`n = Count(s, sep) + 1` result slots. -/
def stringsSplit (s : List Nat) (sep : Nat) : List (List Nat) :=
  genSplitLoop sep (s.count sep) s

/-- The function `removeEmptyStrings`: append every `str != ""` to `r`, in order. -/
def removeEmptyStrings (s : List (List Nat)) : List (List Nat) :=
  s.foldl (fun r str => if str ≠ [] then r ++ [str] else r) []

/-! ## The pipeline of `main` -/

/-- The struct `hancitorConfig`.  A `[]string` is a list; the empty list is the
nil slice, the only empty value `removeEmptyStrings` returns. -/
structure hancitorConfig where
  Campaign : List Nat
  C2 : List (List Nat)
  SampleSHA256 : List Nat
  deriving DecidableEq, Repr

/-- What the container reader gives for the section named `.data`: `absent` when
the file has no such section (`f.Section` returns a nil pointer), otherwise the
two results `(data, dumpErr)` of `Data()`, the bytes read and the error, `none`
for nil. -/
inductive SectionLookup where
  | absent
  | found (data : List Nat) (dumpErr : Option GoError)
  deriving DecidableEq, Repr

/-- Lines 153 and 154, `sectionData, dumpErr := f.Section(".data").Data()` and
`check(dumpErr)`: `Data` dereferences the nil pointer of an absent section;
`check` panics on a read error, whatever bytes came with it; the slice returned
has `len = cap`. -/
def sectionData (sec : SectionLookup) : Except Abort ByteSlice :=
  match sec with
  | .absent => .error .nilDereference
  | .found data dumpErr =>
    (check Abort.dataError dumpErr).bind (fun _ => .ok (ByteSlice.ofList data))

/-- Lines 153 to 166, the two slice expressions: `extKey = sectionData[16:24]` and
the argument `sectionData[24:1024]` of `rc4decrypt`. -/
def extractStage (sec : SectionLookup) : Except Abort (ByteSlice × ByteSlice) :=
  match sectionData sec with
  | .error e => .error e
  | .ok d =>
    match d.slice 16 24 with
    | .error e => .error e
    | .ok extKey =>
      match d.slice 24 1024 with
      | .error e => .error e
      | .ok block => .ok (extKey, block)

/-- Lines 160 and 163: `sha1sum := sha1.Sum(extKey); rc4key := sha1sum[:5]`. -/
def deriveKey (extKey : List Nat) : List Nat := (sha1Sum extKey).take 5

/-- Lines 153 to 166: the decrypted block, before the trim of line 169. -/
def decryptStage (sec : SectionLookup) : Except Abort ByteSlice :=
  match extractStage sec with
  | .error e => .error e
  | .ok (extKey, block) => rc4decryptSlice (deriveKey extKey.bytes) block

/-- Line 169: `plaintext = bytes.Trim(plaintext, "\x00")`. -/
def trimStage (plaintext : ByteSlice) : ByteSlice := bytesTrim plaintext 0

/-- Lines 179 to 188 on the trimmed plaintext: the campaign from
`plaintext[0:16]`, the C2 list from `plaintext[16:]`, and the sample hash. -/
def decodeConfig (plaintext : ByteSlice) (sha256sum : List Nat) : Except Abort hancitorConfig :=
  match plaintext.slice 0 16 with
  | .error e => .error e
  | .ok head =>
    let campaign := (bytesTrim head 0).bytes
    match plaintext.sliceFrom 16 with
    | .error e => .error e
    | .ok rest =>
      .ok ⟨campaign, removeEmptyStrings (stringsSplit rest.bytes 0x7C), sha256sum⟩

/-- Lines 153 to 188 of `main`: from the `.data` section and the sample hash to
the configuration. -/
def main (sec : SectionLookup) (sha256sum : List Nat) : Except Abort hancitorConfig :=
  match decryptStage sec with
  | .error e => .error e
  | .ok plaintext => decodeConfig (trimStage plaintext) sha256sum

/-! ## encoding/json and strings.ReplaceAll -/

/-- The bytes of an ASCII literal. -/
def ascii (s : String) : List Nat := s.data.map Char.toNat

/-- The table `hex = "0123456789abcdef"`. -/
def hexDigit (n : Nat) : Nat := (ascii "0123456789abcdef").getD n 0x30

/-- The table `htmlSafeSet`: the ASCII bytes from space on, less the double quote,
the ampersand, the angle brackets and the backslash. -/
def htmlSafe (b : Nat) : Bool :=
  0x20 ≤ b && b < 0x80 && b != 0x22 && b != 0x26 && b != 0x3C && b != 0x3E && b != 0x5C

/-- The constant `utf8.RuneError`. -/
def RuneError : Nat := 0xFFFD

/-- The tables `first` and `acceptRanges` of `unicode/utf8` for a lead byte: the
length of the sequence and the range allowed for its second byte; `none` for
a byte that starts no sequence. -/
def runeFirst (b : Nat) : Option (Nat × Nat × Nat) :=
  if 0xC2 ≤ b ∧ b ≤ 0xDF then some (2, 0x80, 0xBF)
  else if b = 0xE0 then some (3, 0xA0, 0xBF)
  else if b = 0xED then some (3, 0x80, 0x9F)
  else if 0xE1 ≤ b ∧ b ≤ 0xEF then some (3, 0x80, 0xBF)
  else if b = 0xF0 then some (4, 0x90, 0xBF)
  else if 0xF1 ≤ b ∧ b ≤ 0xF3 then some (4, 0x80, 0xBF)
  else if b = 0xF4 then some (4, 0x80, 0x8F)
  else none

/-- The function `utf8.DecodeRuneInString`: the first rune of `s` and its width in
bytes, `(RuneError, 1)` for an invalid encoding. -/
def DecodeRuneInString (s : List Nat) : Nat × Nat :=
  match s with
  | [] => (RuneError, 0)
  | s0 :: _ =>
    if s0 < 0x80 then (s0, 1)
    else
      match runeFirst s0 with
      | none => (RuneError, 1)
      | some (sz, lo, hi) =>
        if s.length < sz then (RuneError, 1)
        else
          let s1 := s.getD 1 0
          if s1 < lo ∨ hi < s1 then (RuneError, 1)
          else if sz ≤ 2 then (((s0 &&& 0x1F) <<< 6) ||| (s1 &&& 0x3F), 2)
          else
            let s2 := s.getD 2 0
            if s2 < 0x80 ∨ 0xBF < s2 then (RuneError, 1)
            else if sz ≤ 3 then
              (((s0 &&& 0x0F) <<< 12) ||| ((s1 &&& 0x3F) <<< 6) ||| (s2 &&& 0x3F), 3)
            else
              let s3 := s.getD 3 0
              if s3 < 0x80 ∨ 0xBF < s3 then (RuneError, 1)
              else
                (((s0 &&& 0x07) <<< 18) ||| ((s1 &&& 0x3F) <<< 12) ||| ((s2 &&& 0x3F) <<< 6)
                  ||| (s3 &&& 0x3F), 4)

/-- What `encodeState.string` writes after the backslash for an ASCII byte that
is not in `htmlSafeSet`. -/
def escapeTail (b : Nat) : List Nat :=
  if b = 0x5C ∨ b = 0x22 then [b]
  else if b = 0x0A then [0x6E]
  else if b = 0x0D then [0x72]
  else if b = 0x09 then [0x74]
  else ascii "u00" ++ [hexDigit (b / 16), hexDigit (b % 16)]

/-- The loop of `encodeState.string` with `escapeHTML` set, on the part of the
string not yet visited; each round consumes at least one byte, so `len(s)`
rounds are enough. -/
def encodeStringLoop : Nat → List Nat → List Nat
  | 0, _ => []
  | _ + 1, [] => []
  | n + 1, b :: rest =>
    if b < 0x80 then
      if htmlSafe b then b :: encodeStringLoop n rest
      else 0x5C :: escapeTail b ++ encodeStringLoop n rest
    else
      let r := DecodeRuneInString (b :: rest)
      if r.1 = RuneError ∧ r.2 = 1 then
        ascii "\\ufffd" ++ encodeStringLoop n rest
      else if r.1 = 0x2028 ∨ r.1 = 0x2029 then
        ascii "\\u202" ++ [hexDigit (r.1 &&& 0xF)] ++ encodeStringLoop n (rest.drop (r.2 - 1))
      else
        (b :: rest).take r.2 ++ encodeStringLoop n (rest.drop (r.2 - 1))

/-- The method `encodeState.string`: the quoted JSON form of a Go string. -/
def encodeString (s : List Nat) : List Nat :=
  0x22 :: encodeStringLoop s.length s ++ [0x22]

/-- The encoding of a `[]string`: `null` for the nil slice, else the bracketed,
comma-separated strings. -/
def encodeStringSlice (l : List (List Nat)) : List Nat :=
  match l with
  | [] => ascii "null"
  | _ => 0x5B :: (ascii ",").intercalate (l.map encodeString) ++ [0x5D]

/-- The call `json.Marshal(cfg)` of line 205, field names from the struct tags. -/
def jsonMarshal (cfg : hancitorConfig) : List Nat :=
  ascii "\x7b\"campaign\":" ++ encodeString cfg.Campaign
    ++ ascii ",\"c2Servers\":" ++ encodeStringSlice cfg.C2
    ++ ascii ",\"sampleSHA256\":" ++ encodeString cfg.SampleSHA256 ++ ascii "\x7d"

/-- The call `strings.ReplaceAll(s, old, new)` for a non-empty `old`: scanning
from the left, each occurrence of `old` found is replaced by `new` and the scan
resumes behind it; `fuel` bounds the number of bytes visited. -/
def replaceAllLoop (old new : List Nat) : Nat → List Nat → List Nat
  | 0, s => s
  | _ + 1, [] => []
  | n + 1, c :: cs =>
    if old.isPrefixOf (c :: cs) then new ++ replaceAllLoop old new n ((c :: cs).drop old.length)
    else c :: replaceAllLoop old new n cs

/-- The call `strings.ReplaceAll(s, old, new)` for a non-empty `old`. -/
def stringsReplaceAll (s old new : List Nat) : List Nat :=
  replaceAllLoop old new s.length s

/-- The six bytes of the raw string literal of line 208: backslash, `u`, `0000`. -/
def nulEscape : List Nat := [0x5C, 0x75, 0x30, 0x30, 0x30, 0x30]

/-- Lines 205 to 208: the JSON text that is written to the file. -/
def persistedJSON (cfg : hancitorConfig) : List Nat :=
  stringsReplaceAll (jsonMarshal cfg) nulEscape []

/-- JSON text read as a sequence of items: a byte other than the backslash; a
backslash and one byte that is neither a backslash nor `u`; or a backslash, `u`
and four bytes that are not backslashes.  With `nul = false` the item
backslash, `u`, `0000` is excluded. -/
inductive Tokenized (nul : Bool) : List Nat → Prop where
  | nil : Tokenized nul []
  | byte (b : Nat) (r : List Nat) : b ≠ 0x5C → Tokenized nul r → Tokenized nul (b :: r)
  | esc (c : Nat) (r : List Nat) : c ≠ 0x5C → c ≠ 0x75 → Tokenized nul r →
      Tokenized nul (0x5C :: c :: r)
  | uni (h1 h2 h3 h4 : Nat) (r : List Nat) :
      h1 ≠ 0x5C → h2 ≠ 0x5C → h3 ≠ 0x5C → h4 ≠ 0x5C →
      (nul = true ∨ ¬ (h1 = 0x30 ∧ h2 = 0x30 ∧ h3 = 0x30 ∧ h4 = 0x30)) →
      Tokenized nul r → Tokenized nul (0x5C :: 0x75 :: h1 :: h2 :: h3 :: h4 :: r)

/-! ## Lemmas: RC4 -/

theorem XORKeyStream_length (c : Cipher) (p : List Nat) :
    (XORKeyStream c p).length = p.length := by
  induction p generalizing c with
  | nil => rfl
  | cons v vs ih => simp [XORKeyStream, ih]

theorem XORKeyStream_involutive (c : Cipher) (p : List Nat) :
    XORKeyStream c (XORKeyStream c p) = p := by
  induction p generalizing c with
  | nil => rfl
  | cons v vs ih =>
    simp only [XORKeyStream, ih, Nat.xor_assoc, Nat.xor_self, Nat.xor_zero]

theorem NewCipher_ok (k : List Nat) (h1 : 1 ≤ k.length) (h2 : k.length ≤ 256) :
    ∃ c, NewCipher k = .ok c := by
  have h : ¬ (k.length < 1 ∨ 256 < k.length) := by omega
  refine ⟨⟨((List.range 256).foldl (ksaRound k) (List.range 256, 0)).1, 0, 0⟩, ?_⟩
  simp only [NewCipher, if_neg h]

theorem NewCipher_error (k : List Nat) (h : k.length < 1 ∨ 256 < k.length) :
    NewCipher k = .error k.length := by
  simp only [NewCipher, if_pos h]

theorem rc4decrypt_of_NewCipher (k p : List Nat) (c : Cipher) (h : NewCipher k = .ok c) :
    rc4decrypt k p = .ok (XORKeyStream c p) := by
  simp [rc4decrypt, h, check, Except.bind]

theorem rc4decrypt_of_error (k p : List Nat) (h : k.length < 1 ∨ 256 < k.length) :
    rc4decrypt k p = .error (.keySizeError k.length) := by
  simp [rc4decrypt, NewCipher_error k h, check, Except.bind]

theorem rc4decrypt_symm (k p q : List Nat) (h : rc4decrypt k p = .ok q) :
    rc4decrypt k q = .ok p := by
  by_cases hk : k.length < 1 ∨ 256 < k.length
  · rw [rc4decrypt_of_error k p hk] at h
    cases h
  · obtain ⟨c, hc⟩ := NewCipher_ok k (by omega) (by omega)
    rw [rc4decrypt_of_NewCipher k p c hc] at h
    injection h with h
    rw [rc4decrypt_of_NewCipher k q c hc, ← h, XORKeyStream_involutive]

/-! ## Lemmas: SHA-1 and the key -/

theorem sha1Sum_length (data : List Nat) : (sha1Sum data).length = 20 := by
  simp [sha1Sum, putUint32]

theorem putUint32_lt (w b : Nat) (h : b ∈ putUint32 w) : b < 256 := by
  simp only [putUint32, List.mem_cons, List.mem_singleton, List.not_mem_nil, or_false] at h
  rcases h with h | h | h | h <;> subst h <;> exact Nat.mod_lt _ (by decide)

theorem sha1Sum_lt (data : List Nat) (b : Nat) (h : b ∈ sha1Sum data) : b < 256 := by
  simp only [sha1Sum, List.mem_append] at h
  rcases h with (((h | h) | h) | h) | h <;> exact putUint32_lt _ b h

theorem deriveKey_length (s : List Nat) : (deriveKey s).length = 5 := by
  simp [deriveKey, sha1Sum_length]

/-! ## Lemmas: slices of the section -/

theorem slice_ofList (d : List Nat) (lo hi : Nat) (h1 : hi ≤ d.length) (h2 : lo ≤ hi) :
    (ByteSlice.ofList d).slice lo hi = .ok ⟨(d.drop lo).take (hi - lo), d.drop hi⟩ := by
  have a : ¬ ((ByteSlice.ofList d).cap < hi) := by
    simp [ByteSlice.cap, ByteSlice.ofList]; omega
  have b : ¬ (hi < lo) := by omega
  simp only [ByteSlice.slice, if_neg a, if_neg b]
  simp [ByteSlice.ofList]

theorem slice_ofList_error (d : List Nat) (lo hi : Nat) (h1 : d.length < hi) :
    (ByteSlice.ofList d).slice lo hi = .error (.sliceBoundsCap hi d.length) := by
  have a : (ByteSlice.ofList d).cap < hi := by
    simp [ByteSlice.cap, ByteSlice.ofList]; omega
  simp only [ByteSlice.slice, if_pos a]
  simp [ByteSlice.cap, ByteSlice.ofList]

theorem extractStage_ok (d : List Nat) (h : 1024 ≤ d.length) :
    extractStage (.found d none) =
      .ok (⟨(d.drop 16).take 8, d.drop 24⟩, ⟨(d.drop 24).take 1000, d.drop 1024⟩) := by
  simp only [extractStage, sectionData, check, Except.bind]
  rw [slice_ofList d 16 24 (by omega) (by omega)]
  simp only []
  rw [slice_ofList d 24 1024 (by omega) (by omega)]

theorem extractStage_short (d : List Nat) (h : d.length < 24) :
    extractStage (.found d none) = .error (.sliceBoundsCap 24 d.length) := by
  simp only [extractStage, sectionData, check, Except.bind]
  rw [slice_ofList_error d 16 24 h]

theorem extractStage_mid (d : List Nat) (h1 : 24 ≤ d.length) (h2 : d.length < 1024) :
    extractStage (.found d none) = .error (.sliceBoundsCap 1024 d.length) := by
  simp only [extractStage, sectionData, check, Except.bind]
  rw [slice_ofList d 16 24 (by omega) (by omega)]
  simp only []
  rw [slice_ofList_error d 24 1024 h2]

theorem extractStage_lt (d : List Nat) (h : d.length < 1024) :
    extractStage (.found d none)
      = .error (.sliceBoundsCap (if d.length < 24 then 24 else 1024) d.length) := by
  by_cases h24 : d.length < 24
  · rw [if_pos h24]; exact extractStage_short d h24
  · rw [if_neg h24]; exact extractStage_mid d (by omega) h

theorem extractStage_dataError (d : List Nat) (e : GoError) :
    extractStage (.found d (some e)) = .error (.dataError e) := by
  simp only [extractStage, sectionData, check, Except.bind]

theorem extractStage_absent : extractStage .absent = .error .nilDereference := by
  simp only [extractStage, sectionData]

/-- For an 8-byte message the padded message is one 64-byte chunk and the digest
is one application of the block function to the initial values. -/
theorem sha1Sum_of_length_eight (s : List Nat) (hs : s.length = 8) :
    sha1Sum s =
      putUint32 (sha1Block sha1Init
          (s ++ 0x80 :: (List.replicate 47 0 ++ [0, 0, 0, 0, 0, 0, 0, 0x40]))).a
        ++ putUint32 (sha1Block sha1Init
          (s ++ 0x80 :: (List.replicate 47 0 ++ [0, 0, 0, 0, 0, 0, 0, 0x40]))).b
        ++ putUint32 (sha1Block sha1Init
          (s ++ 0x80 :: (List.replicate 47 0 ++ [0, 0, 0, 0, 0, 0, 0, 0x40]))).c
        ++ putUint32 (sha1Block sha1Init
          (s ++ 0x80 :: (List.replicate 47 0 ++ [0, 0, 0, 0, 0, 0, 0, 0x40]))).d
        ++ putUint32 (sha1Block sha1Init
          (s ++ 0x80 :: (List.replicate 47 0 ++ [0, 0, 0, 0, 0, 0, 0, 0x40]))).e := by
  have hpad : sha1Pad 8 = 0x80 :: (List.replicate 47 0 ++ [0, 0, 0, 0, 0, 0, 0, 0x40]) := by
    decide
  have hlen : (s ++ 0x80 :: (List.replicate 47 0 ++ [0, 0, 0, 0, 0, 0, 0, 0x40])).length = 64 := by
    rw [List.length_append, hs, List.length_cons, List.length_append, List.length_replicate]
    rfl
  have hblocks : sha1Blocks (64 / 64) sha1Init
        (s ++ 0x80 :: (List.replicate 47 0 ++ [0, 0, 0, 0, 0, 0, 0, 0x40]))
      = sha1Block sha1Init (s ++ 0x80 :: (List.replicate 47 0 ++ [0, 0, 0, 0, 0, 0, 0, 0x40])) := by
    show sha1Blocks 1 _ _ = _
    rw [sha1Blocks, sha1Blocks, List.take_of_length_le (Nat.le_of_eq hlen)]
  simp only [sha1Sum, hs, hpad, hlen, hblocks]

theorem decryptStage_ok (d : List Nat) (h : 1024 ≤ d.length) :
    decryptStage (.found d none) =
      rc4decryptSlice (deriveKey ((d.drop 16).take 8)) ⟨(d.drop 24).take 1000, d.drop 1024⟩ := by
  simp only [decryptStage, extractStage_ok d h]

/-! ## Lemmas: trimming -/

theorem bytesTrim_bytes (s : ByteSlice) (c : Nat) :
    (bytesTrim s c).bytes
      = (s.bytes.rdropWhile (fun b => b == c)).dropWhile (fun b => b == c) := by
  unfold bytesTrim
  split
  · next h =>
    have : s.bytes = [] := List.length_eq_zero.mp h
    simp [ByteSlice.nil, this]
  · unfold trimLeftByte trimRightByte
    simp only []
    split
    · next h => simp [ByteSlice.nil, List.length_eq_zero.mp h]
    · rfl

theorem rdropWhile_append_replicate (c : Nat) (l : List Nat) :
    ∃ n, l = l.rdropWhile (fun b => b == c) ++ List.replicate n c := by
  induction l using List.reverseRecOn with
  | nil => exact ⟨0, by simp⟩
  | append_singleton l x ih =>
    by_cases hx : x = c
    · obtain ⟨n, hn⟩ := ih
      refine ⟨n + 1, ?_⟩
      rw [List.rdropWhile_concat_pos _ _ _ (by simp [hx]), List.replicate_succ', ← List.append_assoc,
        ← hn, hx]
    · exact ⟨0, by rw [List.rdropWhile_concat_neg _ _ _ (by simpa using hx)]; simp⟩

theorem rdropWhile_getLast_ne (c : Nat) (l : List Nat)
    (hne : l.rdropWhile (fun b => b == c) ≠ []) :
    (l.rdropWhile (fun b => b == c)).getLast hne ≠ c := by
  have := List.rdropWhile_last_not (fun b => b == c) l hne
  simpa using this

theorem prefix_length_le_of_getLast_ne (c : Nat) (k q : List Nat) (n : Nat)
    (hq : q <+: k ++ List.replicate n c) (hlast : ∀ hne : q ≠ [], q.getLast hne ≠ c) :
    q.length ≤ k.length := by
  obtain ⟨t, ht⟩ := hq
  rcases List.append_eq_append_iff.mp ht with ⟨a, h1, _⟩ | ⟨a, h1, h2⟩
  · rw [h1]; simp
  · by_cases ha : a = []
    · subst ha; simp [h1]
    · exfalso
      have hne : q ≠ [] := by rw [h1]; simp [ha]
      apply hlast hne
      have hmem : q.getLast hne ∈ a := by
        have : q.getLast hne = a.getLast ha := by
          simp only [h1]; exact List.getLast_append_of_ne_nil ha
        rw [this]; exact List.getLast_mem ha
      have : q.getLast hne ∈ List.replicate n c := by rw [h2]; exact List.mem_append_left _ hmem
      exact (List.mem_replicate.mp this).2

theorem rdropWhile_cons_of_neg (c x : Nat) (l : List Nat) (hx : x ≠ c) :
    ∃ t, (x :: l).rdropWhile (fun b => b == c) = x :: t := by
  have hp : (x :: l).rdropWhile (fun b => b == c) <+: x :: l := List.rdropWhile_prefix _ _
  cases h : (x :: l).rdropWhile (fun b => b == c) with
  | nil =>
    exfalso
    have := (List.rdropWhile_eq_nil_iff).mp h x (List.mem_cons_self _ _)
    exact hx (by simpa using this)
  | cons y t =>
    rw [h] at hp
    have := (List.cons_prefix_cons.mp hp).1
    exact ⟨t, by rw [this]⟩

theorem bytesTrim_head_ne (s : ByteSlice) (c x : Nat) (t : List Nat)
    (h : (bytesTrim s c).bytes = x :: t) : x ≠ c := by
  rw [bytesTrim_bytes] at h
  have := List.head?_dropWhile_not (fun b => b == c) (s.bytes.rdropWhile (fun b => b == c))
  rw [h] at this
  simpa using this

/-- Trimming a slice whose first byte is not `c` cuts at the right end only. -/
theorem bytesTrim_of_head_ne (s : ByteSlice) (c x : Nat) (t : List Nat)
    (h : s.bytes = x :: t) (hx : x ≠ c) :
    (bytesTrim s c).bytes = s.bytes.rdropWhile (fun b => b == c) := by
  rw [bytesTrim_bytes, h]
  obtain ⟨u, hu⟩ := rdropWhile_cons_of_neg c x t hx
  rw [hu, List.dropWhile_cons_of_neg (by simpa using hx)]

/-! ## Lemmas: splitting -/

theorem removeEmptyStrings_foldl (acc s : List (List Nat)) :
    s.foldl (fun r str => if str ≠ [] then r ++ [str] else r) acc
      = acc ++ s.filter (fun e => decide (e ≠ [])) := by
  induction s generalizing acc with
  | nil => simp
  | cons x xs ih =>
    rw [List.foldl_cons, ih]
    by_cases hx : x = []
    · rw [if_neg (by simpa using hx), List.filter_cons_of_neg (by simpa using hx)]
    · rw [if_pos hx, List.filter_cons_of_pos (by simpa using hx), List.append_assoc]
      rfl

theorem removeEmptyStrings_eq_filter (s : List (List Nat)) :
    removeEmptyStrings s = s.filter (fun e => decide (e ≠ [])) := by
  rw [removeEmptyStrings, removeEmptyStrings_foldl, List.nil_append]

theorem dropWhile_ne_of_mem (sep : Nat) (s : List Nat) (h : sep ∈ s) :
    ∃ rest, s.dropWhile (fun b => b != sep) = sep :: rest := by
  induction s with
  | nil => cases h
  | cons x xs ih =>
    by_cases hx : x = sep
    · exact ⟨xs, by simp [hx]⟩
    · have hm : sep ∈ xs := by
        rcases List.mem_cons.mp h with h | h
        · exact absurd h.symm hx
        · exact h
      obtain ⟨r, hr⟩ := ih hm
      exact ⟨r, by rw [List.dropWhile_cons_of_pos (by simpa using hx), hr]⟩

theorem takeWhile_ne_not_mem (sep : Nat) (s : List Nat) :
    sep ∉ s.takeWhile (fun b => b != sep) := by
  intro h
  have := List.mem_takeWhile_imp h
  simp at this

/-- The decomposition of `s` at the first separator. -/
theorem split_first (sep : Nat) (s : List Nat) (h : sep ∈ s) :
    s = s.takeWhile (fun b => b != sep) ++ sep :: (s.dropWhile (fun b => b != sep)).drop 1 := by
  obtain ⟨r, hr⟩ := dropWhile_ne_of_mem sep s h
  have := List.takeWhile_append_dropWhile (fun b => b != sep) s
  rw [hr] at this ⊢
  simpa using this.symm

theorem genSplitLoop_eq_splitOn (sep : Nat) (n : Nat) (s : List Nat) (h : s.count sep ≤ n) :
    genSplitLoop sep n s = s.splitOn sep := by
  induction n generalizing s with
  | zero =>
    have hc : sep ∉ s := by
      intro hm
      have := List.count_pos_iff.mpr hm
      omega
    simp only [genSplitLoop, List.splitOn]
    rw [List.splitOnP_eq_single]
    intro x hx hp
    have : x = sep := by simpa using hp
    exact hc (this ▸ hx)
  | succ n ih =>
    by_cases hc : sep ∈ s
    · simp only [genSplitLoop, if_pos hc]
      have hs := split_first sep s hc
      have hcnt : ((s.dropWhile (fun b => b != sep)).drop 1).count sep ≤ n := by
        have h1 : s.count sep = (s.takeWhile (fun b => b != sep)).count sep
            + (sep :: (s.dropWhile (fun b => b != sep)).drop 1).count sep := by
          conv_lhs => rw [hs]
          rw [List.count_append]
        rw [List.count_eq_zero_of_not_mem (takeWhile_ne_not_mem sep s), List.count_cons_self] at h1
        omega
      rw [ih _ hcnt]
      conv_rhs => rw [hs]
      simp only [List.splitOn]
      rw [List.splitOnP_first]
      · intro x hx hp
        have : x = sep := by simpa using hp
        exact takeWhile_ne_not_mem sep s (this ▸ hx)
      · simp
    · simp only [genSplitLoop, if_neg hc, List.splitOn]
      rw [List.splitOnP_eq_single]
      intro x hx hp
      have : x = sep := by simpa using hp
      exact hc (this ▸ hx)

theorem stringsSplit_eq_splitOn (s : List Nat) (sep : Nat) :
    stringsSplit s sep = s.splitOn sep :=
  genSplitLoop_eq_splitOn sep _ s (Nat.le_refl _)

theorem genSplitLoop_not_mem (sep : Nat) (n : Nat) (s : List Nat) (h : s.count sep ≤ n) :
    ∀ e ∈ genSplitLoop sep n s, sep ∉ e := by
  induction n generalizing s with
  | zero =>
    intro e he
    have hc : sep ∉ s := by
      intro hm
      have := List.count_pos_iff.mpr hm
      omega
    simp only [genSplitLoop, List.mem_singleton] at he
    rw [he]; exact hc
  | succ n ih =>
    intro e he
    by_cases hc : sep ∈ s
    · simp only [genSplitLoop, if_pos hc, List.mem_cons] at he
      rcases he with he | he
      · rw [he]; exact takeWhile_ne_not_mem sep s
      · have hs := split_first sep s hc
        have hcnt : ((s.dropWhile (fun b => b != sep)).drop 1).count sep ≤ n := by
          have h1 : s.count sep = (s.takeWhile (fun b => b != sep)).count sep
              + (sep :: (s.dropWhile (fun b => b != sep)).drop 1).count sep := by
            conv_lhs => rw [hs]
            rw [List.count_append]
          rw [List.count_eq_zero_of_not_mem (takeWhile_ne_not_mem sep s),
            List.count_cons_self] at h1
          omega
        exact ih _ hcnt e he
    · simp only [genSplitLoop, if_neg hc, List.mem_singleton] at he
      rw [he]; exact hc

theorem genSplitLoop_subset (sep : Nat) (n : Nat) (s : List Nat) :
    ∀ e ∈ genSplitLoop sep n s, ∀ b ∈ e, b ∈ s := by
  induction n generalizing s with
  | zero =>
    intro e he b hb
    simp only [genSplitLoop, List.mem_singleton] at he
    exact he ▸ hb
  | succ n ih =>
    intro e he b hb
    by_cases hc : sep ∈ s
    · simp only [genSplitLoop, if_pos hc, List.mem_cons] at he
      rcases he with he | he
      · exact (List.takeWhile_subset _) (he ▸ hb)
      · have := ih _ e he b hb
        exact (List.dropWhile_subset _) (List.mem_of_mem_drop this)
    · simp only [genSplitLoop, if_neg hc, List.mem_singleton] at he
      exact he ▸ hb

/-! ## Lemmas: decoding -/

theorem slice_prefix (s : ByteSlice) (hi : Nat) (h : hi ≤ s.bytes.length) :
    ∃ sp, s.slice 0 hi = .ok ⟨s.bytes.take hi, sp⟩ := by
  have a : ¬ (s.cap < hi) := by simp [ByteSlice.cap]; omega
  refine ⟨(s.bytes ++ s.spare).drop hi, ?_⟩
  simp only [ByteSlice.slice, if_neg a, Nat.not_lt_zero, if_false, List.drop_zero, Nat.sub_zero]
  rw [List.take_append_of_le_length h]

theorem decodeConfig_ok (pt : ByteSlice) (sha : List Nat) (h : 16 ≤ pt.bytes.length) :
    ∃ sp, decodeConfig pt sha = .ok
      ⟨(bytesTrim ⟨pt.bytes.take 16, sp⟩ 0).bytes,
        removeEmptyStrings (stringsSplit (pt.bytes.drop 16) 0x7C), sha⟩ := by
  obtain ⟨sp, hsp⟩ := slice_prefix pt 16 h
  refine ⟨sp, ?_⟩
  have b : ¬ (pt.len < 16) := by simp [ByteSlice.len]; omega
  simp only [decodeConfig, hsp, ByteSlice.sliceFrom, if_neg b]

theorem decodeConfig_short (pt : ByteSlice) (sha : List Nat) (h : pt.bytes.length < 16) :
    decodeConfig pt sha = .error
      (if pt.cap < 16 then .sliceBoundsCap 16 pt.cap else .sliceBoundsOrder 16 pt.len) := by
  have b : pt.len < 16 := by simpa [ByteSlice.len] using h
  by_cases a : pt.cap < 16
  · simp only [decodeConfig, ByteSlice.slice, if_pos a]
  · simp only [decodeConfig, ByteSlice.slice, if_neg a, Nat.not_lt_zero, if_false,
      ByteSlice.sliceFrom, if_pos b]

theorem decodeConfig_error_isSliceBounds (pt : ByteSlice) (sha : List Nat) (e : Abort)
    (h : decodeConfig pt sha = .error e) : e.isSliceBounds = true := by
  by_cases hlt : pt.bytes.length < 16
  · rw [decodeConfig_short pt sha hlt] at h
    injection h with h
    rw [← h]
    split <;> rfl
  · obtain ⟨sp, hsp⟩ := decodeConfig_ok pt sha (by omega)
    rw [hsp] at h
    cases h

/-! ## Test vectors -/

set_option maxRecDepth 1000000 in
/-- The RC4 test vector with key `Key` and text `Plaintext`. -/
theorem rc4decrypt_vector :
    rc4decrypt (ascii "Key") (ascii "Plaintext")
      = .ok [0xBB, 0xF3, 0x16, 0xE8, 0xD9, 0x40, 0xAF, 0x0A, 0xD3] := by
  decide

set_option maxRecDepth 1000000 in
/-- The SHA-1 test vector of `abc`. -/
theorem sha1Sum_vector :
    sha1Sum (ascii "abc")
      = [0xa9, 0x99, 0x3e, 0x36, 0x47, 0x06, 0x81, 0x6a, 0xba, 0x3e,
         0x25, 0x71, 0x78, 0x50, 0xc2, 0x6c, 0x9c, 0xd0, 0xd8, 0x9d] := by
  decide

set_option maxRecDepth 100000 in
/-- The decoding example of the specification. -/
theorem decodeConfig_example :
    decodeConfig ⟨ascii "CAMPAIGN123\x00\x00\x00\x00\x00http://a.test|http://b.test||", []⟩ []
      = .ok ⟨ascii "CAMPAIGN123", [ascii "http://a.test", ascii "http://b.test"], []⟩ := by
  decide

/-! ## Lemmas: the JSON text and the deletion of the NUL escape -/

theorem Tokenized.append {nul : Bool} {x y : List Nat} (hx : Tokenized nul x)
    (hy : Tokenized nul y) : Tokenized nul (x ++ y) := by
  induction hx with
  | nil => exact hy
  | byte b r hb _ ih => exact Tokenized.byte b _ hb ih
  | esc c r h1 h2 _ ih => exact Tokenized.esc c _ h1 h2 ih
  | uni h1 h2 h3 h4 r a b c d e _ ih => exact Tokenized.uni h1 h2 h3 h4 _ a b c d e ih

theorem Tokenized.of_not_mem {nul : Bool} (l : List Nat) (h : 0x5C ∉ l) : Tokenized nul l := by
  induction l with
  | nil => exact Tokenized.nil
  | cons b r ih =>
    refine Tokenized.byte b r ?_ (ih (fun hm => h (List.mem_cons_of_mem _ hm)))
    intro hb
    exact h (hb ▸ List.mem_cons_self _ _)

theorem replaceAllLoop_cons_of_ne (n b : Nat) (r : List Nat) (hb : b ≠ 0x5C) :
    replaceAllLoop nulEscape [] (n + 1) (b :: r) = b :: replaceAllLoop nulEscape [] n r := by
  have : nulEscape.isPrefixOf (b :: r) = false := by
    simp [nulEscape, List.isPrefixOf, Ne.symm hb]
  simp only [replaceAllLoop, this, Bool.false_eq_true, if_false]

theorem replaceAllLoop_nil (n : Nat) : replaceAllLoop nulEscape [] n [] = [] := by
  cases n <;> rfl

/-- Deleting the NUL escapes from tokenized text leaves tokenized text without
the NUL escape item. -/
theorem Tokenized.replaceAll {t : List Nat} (ht : Tokenized true t) :
    ∀ n, t.length ≤ n → Tokenized false (replaceAllLoop nulEscape [] n t) := by
  induction ht with
  | nil => intro n _; rw [replaceAllLoop_nil]; exact Tokenized.nil
  | byte b r hb _ ih =>
    intro n hn
    obtain ⟨m, rfl⟩ : ∃ m, n = m + 1 := ⟨n - 1, by simp only [List.length_cons] at hn; omega⟩
    rw [replaceAllLoop_cons_of_ne m b r hb]
    exact Tokenized.byte b _ hb (ih m (by simp only [List.length_cons] at hn; omega))
  | esc c r h1 h2 _ ih =>
    intro n hn
    obtain ⟨m, rfl⟩ : ∃ m, n = m + 2 := ⟨n - 2, by simp only [List.length_cons] at hn; omega⟩
    have hp : nulEscape.isPrefixOf (0x5C :: c :: r) = false := by
      simp [nulEscape, List.isPrefixOf, Ne.symm h2]
    have e1 : replaceAllLoop nulEscape [] (m + 2) (0x5C :: c :: r)
        = 0x5C :: replaceAllLoop nulEscape [] (m + 1) (c :: r) := by
      simp only [replaceAllLoop, hp, Bool.false_eq_true, if_false]
    rw [e1, replaceAllLoop_cons_of_ne m c r h1]
    exact Tokenized.esc c _ h1 h2 (ih m (by simp only [List.length_cons] at hn; omega))
  | uni h1 h2 h3 h4 r a b c d _ _ ih =>
    intro n hn
    obtain ⟨m, rfl⟩ : ∃ m, n = m + 6 := ⟨n - 6, by simp only [List.length_cons] at hn; omega⟩
    have hm : r.length ≤ m := by simp only [List.length_cons] at hn; omega
    by_cases hz : h1 = 0x30 ∧ h2 = 0x30 ∧ h3 = 0x30 ∧ h4 = 0x30
    · obtain ⟨rfl, rfl, rfl, rfl⟩ := hz
      have hp : nulEscape.isPrefixOf (0x5C :: 0x75 :: 0x30 :: 0x30 :: 0x30 :: 0x30 :: r) = true := by
        simp [nulEscape, List.isPrefixOf]
      have e1 : replaceAllLoop nulEscape [] (m + 6) (0x5C :: 0x75 :: 0x30 :: 0x30 :: 0x30 :: 0x30 :: r)
          = replaceAllLoop nulEscape [] (m + 5) r := by
        simp only [replaceAllLoop, hp, if_true, List.nil_append]
        rfl
      rw [e1]
      exact ih (m + 5) (by omega)
    · have hp : nulEscape.isPrefixOf (0x5C :: 0x75 :: h1 :: h2 :: h3 :: h4 :: r) = false := by
        simp only [nulEscape, List.isPrefixOf, Bool.and_eq_false_imp, Bool.and_eq_true,
          beq_iff_eq, Bool.and_true]
        simp only [beq_eq_false_iff_ne, ne_eq]
        intro _ _ e1 e2 e3 e4
        exact hz ⟨e1.symm, e2.symm, e3.symm, e4.symm⟩
      have e1 : replaceAllLoop nulEscape [] (m + 6) (0x5C :: 0x75 :: h1 :: h2 :: h3 :: h4 :: r)
          = 0x5C :: replaceAllLoop nulEscape [] (m + 5) (0x75 :: h1 :: h2 :: h3 :: h4 :: r) := by
        simp only [replaceAllLoop, hp, Bool.false_eq_true, if_false]
      rw [e1, replaceAllLoop_cons_of_ne _ _ _ (by decide), replaceAllLoop_cons_of_ne _ _ _ a,
        replaceAllLoop_cons_of_ne _ _ _ b, replaceAllLoop_cons_of_ne _ _ _ c,
        replaceAllLoop_cons_of_ne _ _ _ d]
      exact Tokenized.uni h1 h2 h3 h4 _ a b c d (Or.inr hz) (ih m hm)

theorem not_nulEscape_prefix_of_ne (b : Nat) (r : List Nat) (hb : b ≠ 0x5C) :
    ¬ nulEscape <+: b :: r := by
  intro h
  exact hb (List.cons_prefix_cons.mp h).1.symm

/-- Tokenized text without the NUL escape item has no occurrence of the six
bytes of the NUL escape. -/
theorem Tokenized.nulEscape_absent {t : List Nat} (ht : Tokenized false t) : ¬ nulEscape <:+: t := by
  induction ht with
  | nil =>
    intro h
    have := List.eq_nil_of_infix_nil h
    cases this
  | byte b r hb _ ih =>
    intro h
    rcases List.infix_cons_iff.mp h with h | h
    · exact not_nulEscape_prefix_of_ne b r hb h
    · exact ih h
  | esc c r h1 h2 _ ih =>
    intro h
    rcases List.infix_cons_iff.mp h with h | h
    · have := (List.cons_prefix_cons.mp h).2
      exact h2 (List.cons_prefix_cons.mp this).1.symm
    · rcases List.infix_cons_iff.mp h with h | h
      · exact not_nulEscape_prefix_of_ne c r h1 h
      · exact ih h
  | uni h1 h2 h3 h4 r a b c d e _ ih =>
    intro h
    rcases List.infix_cons_iff.mp h with h | h
    · have p1 := (List.cons_prefix_cons.mp h).2
      have p2 := (List.cons_prefix_cons.mp p1).2
      have p3 := List.cons_prefix_cons.mp p2
      have p4 := List.cons_prefix_cons.mp p3.2
      have p5 := List.cons_prefix_cons.mp p4.2
      have p6 := List.cons_prefix_cons.mp p5.2
      rcases e with e | e
      · cases e
      · exact e ⟨p3.1.symm, p4.1.symm, p5.1.symm, p6.1.symm⟩
    · rcases List.infix_cons_iff.mp h with h | h
      · exact not_nulEscape_prefix_of_ne _ _ (by decide) h
      · rcases List.infix_cons_iff.mp h with h | h
        · exact not_nulEscape_prefix_of_ne _ _ a h
        · rcases List.infix_cons_iff.mp h with h | h
          · exact not_nulEscape_prefix_of_ne _ _ b h
          · rcases List.infix_cons_iff.mp h with h | h
            · exact not_nulEscape_prefix_of_ne _ _ c h
            · rcases List.infix_cons_iff.mp h with h | h
              · exact not_nulEscape_prefix_of_ne _ _ d h
              · exact ih h

theorem hexDigit_ne (n : Nat) : hexDigit n ≠ 0x5C := by
  have hall : ∀ x ∈ ascii "0123456789abcdef", x ≠ 0x5C := by decide
  unfold hexDigit
  rw [List.getD_eq_getElem?_getD]
  cases h : (ascii "0123456789abcdef")[n]? with
  | none => simp
  | some x => simpa using hall x (List.getElem?_mem h)

theorem escapeTail_tokenized (b : Nat) (hb : b ≠ 0x5C) (r : List Nat) (hr : Tokenized true r) :
    Tokenized true (0x5C :: escapeTail b ++ r) := by
  unfold escapeTail
  split
  · next h =>
    have : b = 0x22 := by rcases h with h | h; exact absurd h hb; exact h
    subst this
    exact Tokenized.esc _ _ (by decide) (by decide) hr
  · split
    · exact Tokenized.esc _ _ (by decide) (by decide) hr
    · split
      · exact Tokenized.esc _ _ (by decide) (by decide) hr
      · split
        · exact Tokenized.esc _ _ (by decide) (by decide) hr
        · have : ascii "u00" = [0x75, 0x30, 0x30] := by decide
          rw [this]
          exact Tokenized.uni _ _ _ _ _ (by decide) (by decide) (hexDigit_ne _) (hexDigit_ne _)
            (Or.inl rfl) hr

theorem encodeStringLoop_tokenized (n : Nat) (s : List Nat) (hs : 0x5C ∉ s) :
    Tokenized true (encodeStringLoop n s) := by
  induction n generalizing s with
  | zero => exact Tokenized.nil
  | succ n ih =>
    cases s with
    | nil => exact Tokenized.nil
    | cons b rest =>
      have hb : b ≠ 0x5C := fun h => hs (h ▸ List.mem_cons_self _ _)
      have hrest : 0x5C ∉ rest := fun h => hs (List.mem_cons_of_mem _ h)
      have hdrop : ∀ k, 0x5C ∉ rest.drop k := fun k h => hrest (List.mem_of_mem_drop h)
      simp only [encodeStringLoop]
      split
      · split
        · exact Tokenized.byte b _ hb (ih rest hrest)
        · exact escapeTail_tokenized b hb _ (ih rest hrest)
      · split
        · have : ascii "\\ufffd" = [0x5C, 0x75, 0x66, 0x66, 0x66, 0x64] := by decide
          rw [this]
          exact Tokenized.uni _ _ _ _ _ (by decide) (by decide) (by decide) (by decide)
            (Or.inl rfl) (ih rest hrest)
        · split
          · have : ascii "\\u202" = [0x5C, 0x75, 0x32, 0x30, 0x32] := by decide
            rw [this]
            exact Tokenized.uni _ _ _ _ _ (by decide) (by decide) (by decide) (hexDigit_ne _)
              (Or.inl rfl) (ih _ (hdrop _))
          · exact Tokenized.append
              (Tokenized.of_not_mem _ (fun h => hs (List.mem_of_mem_take h))) (ih _ (hdrop _))

theorem encodeString_tokenized (s : List Nat) (hs : 0x5C ∉ s) :
    Tokenized true (encodeString s) := by
  unfold encodeString
  exact Tokenized.byte _ _ (by decide)
    (Tokenized.append (encodeStringLoop_tokenized _ s hs) (Tokenized.of_not_mem _ (by decide)))

theorem intercalate_tokenized (l : List (List Nat)) (hl : ∀ e ∈ l, 0x5C ∉ e) :
    Tokenized true ((ascii ",").intercalate (l.map encodeString)) := by
  induction l with
  | nil => exact Tokenized.nil
  | cons x xs ih =>
    have hx := encodeString_tokenized x (hl x (List.mem_cons_self _ _))
    have hxs := ih (fun e he => hl e (List.mem_cons_of_mem _ he))
    cases xs with
    | nil => simpa [List.intercalate] using hx
    | cons y ys =>
      have e : (ascii ",").intercalate ((x :: y :: ys).map encodeString)
          = encodeString x ++ (ascii "," ++ (ascii ",").intercalate ((y :: ys).map encodeString)) := by
        simp [List.intercalate]
      rw [e]
      exact hx.append ((Tokenized.of_not_mem _ (by decide)).append hxs)

theorem encodeStringSlice_tokenized (l : List (List Nat)) (hl : ∀ e ∈ l, 0x5C ∉ e) :
    Tokenized true (encodeStringSlice l) := by
  unfold encodeStringSlice
  split
  · exact Tokenized.of_not_mem _ (by decide)
  · exact Tokenized.byte _ _ (by decide)
      ((intercalate_tokenized l hl).append (Tokenized.of_not_mem _ (by decide)))

theorem jsonMarshal_tokenized (cfg : hancitorConfig) (h1 : 0x5C ∉ cfg.Campaign)
    (h2 : ∀ e ∈ cfg.C2, 0x5C ∉ e) (h3 : 0x5C ∉ cfg.SampleSHA256) :
    Tokenized true (jsonMarshal cfg) := by
  unfold jsonMarshal
  exact ((((((Tokenized.of_not_mem _ (by decide)).append (encodeString_tokenized _ h1)).append
    (Tokenized.of_not_mem _ (by decide))).append (encodeStringSlice_tokenized _ h2)).append
    (Tokenized.of_not_mem _ (by decide))).append (encodeString_tokenized _ h3)).append
    (Tokenized.of_not_mem _ (by decide))

/-! ## The claims -/

/-- C1: for a plaintext of at least 16 bytes decoding succeeds and the C2 list is
the list of segments of `plaintext[16:]` split at every `|` byte, less the empty
segments, in order; every entry is non-empty and has no `|`; a remainder made of
`|` bytes only (or empty) gives the empty list. -/
theorem c2_eq_nonempty_segments (pt : ByteSlice) (sha : List Nat) (h : 16 ≤ pt.bytes.length) :
    ∃ cfg, decodeConfig pt sha = .ok cfg ∧
      cfg.C2 = removeEmptyStrings (stringsSplit (pt.bytes.drop 16) 0x7C) ∧
      cfg.C2 = ((pt.bytes.drop 16).splitOn 0x7C).filter (fun e => decide (e ≠ [])) ∧
      (∀ e ∈ cfg.C2, e ≠ [] ∧ 0x7C ∉ e) ∧
      ((∀ b ∈ pt.bytes.drop 16, b = 0x7C) → cfg.C2 = []) := by
  obtain ⟨sp, hsp⟩ := decodeConfig_ok pt sha h
  refine ⟨_, hsp, rfl, ?_, ?_, ?_⟩
  · simp only [removeEmptyStrings_eq_filter, stringsSplit_eq_splitOn]
  · intro e he
    simp only [removeEmptyStrings_eq_filter, List.mem_filter, decide_eq_true_eq] at he
    exact ⟨he.2, genSplitLoop_not_mem 0x7C _ _ (Nat.le_refl _) e he.1⟩
  · intro hall
    simp only [removeEmptyStrings_eq_filter]
    rw [List.filter_eq_nil_iff]
    intro e he
    have hno := genSplitLoop_not_mem 0x7C _ _ (Nat.le_refl _) e he
    have hsub := genSplitLoop_subset 0x7C _ _ e he
    have : e = [] := by
      cases e with
      | nil => rfl
      | cons x xs =>
        exfalso
        apply hno
        have := hall x (hsub x (List.mem_cons_self _ _))
        rw [this]; exact List.mem_cons_self _ _
    simp [this]

/-- C1, at the example of the specification: the plaintext
`CAMPAIGN123 NUL*5 http://a.test|http://b.test||`. -/
theorem c2_eq_nonempty_segments_witness :
    ∃ cfg, decodeConfig ⟨ascii "CAMPAIGN123\x00\x00\x00\x00\x00http://a.test|http://b.test||", []⟩ []
        = .ok cfg ∧
      cfg.C2 = removeEmptyStrings (stringsSplit
        ((ascii "CAMPAIGN123\x00\x00\x00\x00\x00http://a.test|http://b.test||").drop 16) 0x7C) ∧
      cfg.C2 = (((ascii "CAMPAIGN123\x00\x00\x00\x00\x00http://a.test|http://b.test||").drop 16).splitOn
        0x7C).filter (fun e => decide (e ≠ [])) ∧
      (∀ e ∈ cfg.C2, e ≠ [] ∧ 0x7C ∉ e) ∧
      ((∀ b ∈ (ascii "CAMPAIGN123\x00\x00\x00\x00\x00http://a.test|http://b.test||").drop 16,
        b = 0x7C) → cfg.C2 = []) :=
  c2_eq_nonempty_segments
    ⟨ascii "CAMPAIGN123\x00\x00\x00\x00\x00http://a.test|http://b.test||", []⟩ [] (by decide)

set_option maxRecDepth 100000 in
/-- C2 at a failing input: a decrypted block of 1000 bytes whose campaign field
starts with a zero byte, followed at byte 16 by two URLs.  `bytes.Trim` cuts the
zero bytes at both ends, so the plaintext is not a prefix of the block and is
not the block less its trailing zero bytes; the fields are then read one byte
late: the campaign takes the first byte of the URL list. -/
theorem trimStage_cuts_leading_zero :
    (0 :: ascii "AMPAIGN123\x00\x00\x00\x00\x00http://a.test|http://b.test"
      ++ List.replicate 957 0).length = 1000 ∧
    (trimStage ⟨0 :: ascii "AMPAIGN123\x00\x00\x00\x00\x00http://a.test|http://b.test"
      ++ List.replicate 957 0, []⟩).bytes
      = ascii "AMPAIGN123\x00\x00\x00\x00\x00http://a.test|http://b.test" ∧
    ¬ ((trimStage ⟨0 :: ascii "AMPAIGN123\x00\x00\x00\x00\x00http://a.test|http://b.test"
      ++ List.replicate 957 0, []⟩).bytes
      <+: 0 :: ascii "AMPAIGN123\x00\x00\x00\x00\x00http://a.test|http://b.test"
        ++ List.replicate 957 0) ∧
    (trimStage ⟨0 :: ascii "AMPAIGN123\x00\x00\x00\x00\x00http://a.test|http://b.test"
      ++ List.replicate 957 0, []⟩).bytes
      ≠ (0 :: ascii "AMPAIGN123\x00\x00\x00\x00\x00http://a.test|http://b.test"
          ++ List.replicate 957 0).rdropWhile (fun b => b == 0) ∧
    decodeConfig (trimStage ⟨0 :: ascii "AMPAIGN123\x00\x00\x00\x00\x00http://a.test|http://b.test"
      ++ List.replicate 957 0, []⟩) []
      = .ok ⟨ascii "AMPAIGN123\x00\x00\x00\x00\x00h",
          [ascii "ttp://a.test", ascii "http://b.test"], []⟩ := by
  decide

/-- C3: when the plaintext left by the whole-buffer trim has at least 16 bytes,
decoding succeeds and the campaign is `plaintext[0:16]` less its trailing zero
bytes: a prefix of `plaintext[0:16]` that does not end in a zero byte, followed in
`plaintext[0:16]` by zero bytes only, at least as long as any other prefix not
ending in a zero byte, and of at most 16 bytes. -/
theorem campaign_eq_trimmed_prefix (block : ByteSlice) (sha : List Nat)
    (h : 16 ≤ (trimStage block).bytes.length) :
    ∃ cfg, decodeConfig (trimStage block) sha = .ok cfg ∧
      cfg.Campaign = ((trimStage block).bytes.take 16).rdropWhile (fun b => b == 0) ∧
      cfg.Campaign <+: (trimStage block).bytes.take 16 ∧
      (∀ hne : cfg.Campaign ≠ [], cfg.Campaign.getLast hne ≠ 0) ∧
      (∃ n, (trimStage block).bytes.take 16 = cfg.Campaign ++ List.replicate n 0) ∧
      (∀ q, q <+: (trimStage block).bytes.take 16 → (∀ hne : q ≠ [], q.getLast hne ≠ 0) →
        q.length ≤ cfg.Campaign.length) ∧
      cfg.Campaign.length ≤ 16 := by
  obtain ⟨sp, hsp⟩ := decodeConfig_ok (trimStage block) sha h
  have hcamp : (bytesTrim ⟨(trimStage block).bytes.take 16, sp⟩ 0).bytes
      = ((trimStage block).bytes.take 16).rdropWhile (fun b => b == 0) := by
    cases hb : (trimStage block).bytes with
    | nil => rw [hb] at h; simp at h
    | cons x t =>
      have hx : x ≠ 0 := bytesTrim_head_ne block 0 x t hb
      exact bytesTrim_of_head_ne ⟨(x :: t).take 16, sp⟩ 0 x (t.take 15) (by simp) hx
  obtain ⟨n, hn⟩ := rdropWhile_append_replicate 0 ((trimStage block).bytes.take 16)
  have hpre : ((trimStage block).bytes.take 16).rdropWhile (fun b => b == 0)
      <+: (trimStage block).bytes.take 16 := List.rdropWhile_prefix _ _
  refine ⟨_, hsp, hcamp, ?_, ?_, ?_, ?_, ?_⟩
  · simp only [hcamp]; exact hpre
  · simp only [hcamp]; exact rdropWhile_getLast_ne 0 _
  · simp only [hcamp]; exact ⟨n, hn⟩
  · intro q hq hlast
    simp only [hcamp]
    rw [hn] at hq
    exact prefix_length_le_of_getLast_ne 0 _ q n hq hlast
  · simp only [hcamp]
    have := hpre.length_le
    simp only [List.length_take] at this
    omega

set_option maxRecDepth 100000 in
/-- C3 at a block of 1000 bytes whose campaign field has a zero byte in the middle. -/
theorem campaign_eq_trimmed_prefix_witness :
    ∃ cfg, decodeConfig (trimStage ⟨ascii "CAMP\x00AIGN\x00\x00\x00\x00\x00\x00\x00http://a.test"
        ++ List.replicate 971 0, []⟩) [] = .ok cfg ∧
      cfg.Campaign = ascii "CAMP\x00AIGN" :=
  have h := campaign_eq_trimmed_prefix
    ⟨ascii "CAMP\x00AIGN\x00\x00\x00\x00\x00\x00\x00http://a.test" ++ List.replicate 971 0, []⟩ []
    (by decide)
  match h with
  | ⟨cfg, h1, h2, _⟩ => ⟨cfg, h1, h2.trans (by decide)⟩

set_option maxRecDepth 100000 in
/-- C6 as stated fails: on the trimmed plaintext of a block holding 10 bytes and
990 zero bytes the decoding stops in the run-time panic
`slice bounds out of range [16:10]`, which is not a `TruncatedConfig` error; on an
all-zero block it stops in `slice bounds out of range [:16] with capacity 0`. -/
theorem decodeConfig_short_is_bounds_panic :
    (trimStage ⟨ascii "0123456789" ++ List.replicate 990 0, []⟩).bytes.length = 10 ∧
    decodeConfig (trimStage ⟨ascii "0123456789" ++ List.replicate 990 0, []⟩) []
      = .error (.sliceBoundsOrder 16 10) ∧
    decodeConfig (trimStage ⟨ascii "0123456789" ++ List.replicate 990 0, []⟩) []
      ≠ .error (.named .TruncatedConfig) ∧
    decodeConfig (trimStage ⟨List.replicate 1000 0, []⟩) [] = .error (.sliceBoundsCap 16 0) := by
  decide

/-- C6, amended: decoding fails exactly when the trimmed plaintext is shorter
than 16 bytes.  Then it stops in a run-time slice-bounds panic, at
`plaintext[0:16]` when the capacity is below 16 (the nil slice of an all-zero
block) and at `plaintext[16:]` otherwise, and no configuration is returned; with
16 bytes or more it returns a configuration. -/
theorem decodeConfig_fails_iff_short (pt : ByteSlice) (sha : List Nat) :
    (pt.bytes.length < 16 →
      decodeConfig pt sha = .error
        (if pt.cap < 16 then .sliceBoundsCap 16 pt.cap else .sliceBoundsOrder 16 pt.len) ∧
      (∃ e, decodeConfig pt sha = .error e ∧ e.isSliceBounds = true) ∧
      ¬ ∃ cfg, decodeConfig pt sha = .ok cfg) ∧
    (16 ≤ pt.bytes.length → ∃ cfg, decodeConfig pt sha = .ok cfg) ∧
    ((∃ e, decodeConfig pt sha = .error e) ↔ pt.bytes.length < 16) := by
  have hshort : pt.bytes.length < 16 → ∃ e, decodeConfig pt sha = .error e ∧ e.isSliceBounds = true := by
    intro h
    refine ⟨_, decodeConfig_short pt sha h, ?_⟩
    split <;> rfl
  refine ⟨?_, ?_, ?_⟩
  · intro h
    refine ⟨decodeConfig_short pt sha h, hshort h, ?_⟩
    rintro ⟨cfg, hc⟩
    rw [decodeConfig_short pt sha h] at hc
    cases hc
  · intro h
    obtain ⟨sp, hsp⟩ := decodeConfig_ok pt sha h
    exact ⟨_, hsp⟩
  · constructor
    · rintro ⟨e, he⟩
      by_contra hlt
      obtain ⟨sp, hsp⟩ := decodeConfig_ok pt sha (by omega)
      rw [hsp] at he
      cases he
    · intro h
      obtain ⟨e, he, _⟩ := hshort h
      exact ⟨e, he⟩

set_option maxRecDepth 100000 in
/-- C6, amended, at a 10-byte plaintext and at a 16-byte plaintext. -/
theorem decodeConfig_fails_iff_short_witness :
    (∃ e, decodeConfig ⟨ascii "0123456789", List.replicate 990 0⟩ [] = .error e
      ∧ e.isSliceBounds = true) ∧
    (∃ cfg, decodeConfig ⟨ascii "0123456789abcdef", []⟩ [] = .ok cfg) :=
  ⟨((decodeConfig_fails_iff_short ⟨ascii "0123456789", List.replicate 990 0⟩ []).1 (by decide)).2.1,
    (decodeConfig_fails_iff_short ⟨ascii "0123456789abcdef", []⟩ []).2.1 (by decide)⟩

/-- C4: for a key of 1 to 256 bytes and any byte sequence `p`, `rc4decrypt` returns
on `p`, returns on its own result, and the second result is `p`. -/
theorem rc4decrypt_twice (k p : List Nat) (h1 : 1 ≤ k.length) (h2 : k.length ≤ 256) :
    ∃ q, rc4decrypt k p = .ok q ∧ rc4decrypt k q = .ok p := by
  obtain ⟨c, hc⟩ := NewCipher_ok k h1 h2
  exact ⟨_, rc4decrypt_of_NewCipher k p c hc,
    rc4decrypt_symm k p _ (rc4decrypt_of_NewCipher k p c hc)⟩

/-- C4 at the key `Key` and the text `Plaintext`, and at the empty text. -/
theorem rc4decrypt_twice_witness :
    (∃ q, rc4decrypt (ascii "Key") (ascii "Plaintext") = .ok q
      ∧ rc4decrypt (ascii "Key") q = .ok (ascii "Plaintext")) ∧
    (∃ q, rc4decrypt (ascii "Key") [] = .ok q ∧ rc4decrypt (ascii "Key") q = .ok []) :=
  ⟨rc4decrypt_twice (ascii "Key") (ascii "Plaintext") (by decide) (by decide),
    rc4decrypt_twice (ascii "Key") [] (by decide) (by decide)⟩

/-- C5: for a 1024-byte section whose bytes 16 to 24 are the seed `s` and whose
bytes 24 to 1024 are `rc4decrypt` of the 1000-byte `p` under the key derived from
`s`, the decryption stage returns exactly `p` (a slice with no spare capacity). -/
theorem decryptStage_recovers (s p d : List Nat) (_hs : s.length = 8) (_hp : p.length = 1000)
    (hd : d.length = 1024) (hseed : (d.drop 16).take 8 = s)
    (hblock : rc4decrypt (deriveKey s) p = .ok ((d.drop 24).take 1000)) :
    decryptStage (.found d none) = .ok ⟨p, []⟩ := by
  have hsym := rc4decrypt_symm _ _ _ hblock
  have hnil : d.drop 1024 = [] := List.drop_eq_nil_of_le (by omega)
  rw [decryptStage_ok d (by omega), hseed, hnil]
  simp only [rc4decryptSlice, hsym, Except.map]

/-- C5 at the seed `1 .. 8`, the plaintext of 1000 bytes `A`, and the section made
of 16 zero bytes, the seed and the encrypted plaintext. -/
theorem decryptStage_recovers_witness :
    decryptStage (.found (List.replicate 16 0 ++ [1, 2, 3, 4, 5, 6, 7, 8]
        ++ ((rc4decrypt (deriveKey [1, 2, 3, 4, 5, 6, 7, 8]) (List.replicate 1000 0x41)).toOption.getD []))
        none)
      = .ok ⟨List.replicate 1000 0x41, []⟩ := by
  obtain ⟨c, hc⟩ := NewCipher_ok (deriveKey [1, 2, 3, 4, 5, 6, 7, 8])
    (by rw [deriveKey_length]; decide) (by rw [deriveKey_length]; decide)
  have hr := rc4decrypt_of_NewCipher _ (List.replicate 1000 0x41) c hc
  have hl : (XORKeyStream c (List.replicate 1000 0x41)).length = 1000 := by
    rw [XORKeyStream_length, List.length_replicate]
  have h24 : (List.replicate 16 0 ++ [1, 2, 3, 4, 5, 6, 7, 8] : List Nat).length = 24 := by
    rw [List.length_append, List.length_replicate]; rfl
  refine decryptStage_recovers [1, 2, 3, 4, 5, 6, 7, 8] (List.replicate 1000 0x41) _ rfl
    (List.length_replicate _ _) ?_ ?_ ?_
  · rw [hr, List.length_append, h24]
    simp only [Except.toOption, Option.getD_some, hl]
  · rw [List.append_assoc, List.drop_append_of_le_length (by rw [List.length_replicate]),
      List.drop_eq_nil_of_le (by rw [List.length_replicate]), List.nil_append]
    rfl
  · rw [hr]
    simp only [Except.toOption, Option.getD_some]
    rw [List.drop_append_of_le_length (by rw [h24]), List.drop_eq_nil_of_le (by rw [h24]),
      List.nil_append, List.take_of_length_le (by omega)]

/-- C7 as stated fails: on a section of 1023 bytes the extraction stops in the
run-time panic `slice bounds out of range [:1024] with capacity 1023`, on an
absent section in a nil dereference; neither is a `MalformedSample` error. -/
theorem extractStage_short_is_bounds_panic :
    extractStage (.found (List.replicate 1023 0) none) = .error (.sliceBoundsCap 1024 1023) ∧
    extractStage (.found (List.replicate 1023 0) none) ≠ .error (.named .MalformedSample) ∧
    extractStage .absent = .error .nilDereference ∧
    extractStage .absent ≠ .error (.named .MalformedSample) := by
  have h : extractStage (.found (List.replicate 1023 0) none)
      = .error (.sliceBoundsCap 1024 1023) := by
    have := extractStage_mid (List.replicate 1023 0) (by rw [List.length_replicate]; decide)
      (by rw [List.length_replicate]; decide)
    rw [List.length_replicate] at this
    exact this
  refine ⟨h, ?_, extractStage_absent, ?_⟩
  · rw [h]; intro h2; cases h2
  · rw [extractStage_absent]; intro h2; cases h2

/-- C7, amended: extraction fails exactly when the `.data` section is absent, or
`Data` returns an error for it, or it has fewer than 1024 bytes; it fails by a
panic: nil dereference for an absent section, `check` on the read error, slice
bounds out of range for a short section.  For a section `d` of 1024 bytes or
more, read without error, it succeeds with the seed `d[16:24]`, 8 bytes, and
the cipher block `d[24:1024]`, 1000 bytes, nothing cut or padded. -/
theorem extractStage_fails_iff_short (sec : SectionLookup) :
    (sec = .absent → extractStage sec = .error .nilDereference) ∧
    (∀ d e, sec = .found d (some e) → extractStage sec = .error (.dataError e)) ∧
    (∀ d, sec = .found d none → d.length < 1024 →
      extractStage sec = .error (.sliceBoundsCap (if d.length < 24 then 24 else 1024) d.length)) ∧
    (∀ d, sec = .found d none → 1024 ≤ d.length →
      ∃ seed block, extractStage sec = .ok (seed, block) ∧
        seed.bytes = (d.drop 16).take 8 ∧ seed.bytes.length = 8 ∧
        block.bytes = (d.drop 24).take 1000 ∧ block.bytes.length = 1000) ∧
    ((∃ e, extractStage sec = .error e) ↔
      (sec = .absent ∨ (∃ d e, sec = .found d (some e)) ∨
        ∃ d, sec = .found d none ∧ d.length < 1024)) ∧
    (∀ k, extractStage sec ≠ .error (.named k)) := by
  refine ⟨?_, ?_, ?_, ?_, ?_, ?_⟩
  · intro h; subst h; exact extractStage_absent
  · intro d e h; subst h; exact extractStage_dataError d e
  · intro d h hd; subst h; exact extractStage_lt d hd
  · intro d h hd
    subst h
    refine ⟨_, _, extractStage_ok d hd, rfl, ?_, rfl, ?_⟩
    · simp only [List.length_take, List.length_drop]; omega
    · simp only [List.length_take, List.length_drop]; omega
  · constructor
    · rintro ⟨e, he⟩
      cases sec with
      | absent => exact Or.inl rfl
      | found d dumpErr =>
        cases dumpErr with
        | some e2 => exact Or.inr (Or.inl ⟨d, e2, rfl⟩)
        | none =>
          refine Or.inr (Or.inr ⟨d, rfl, ?_⟩)
          by_contra hge
          rw [extractStage_ok d (by omega)] at he
          cases he
    · rintro (h | ⟨d, e, h⟩ | ⟨d, h, hd⟩)
      · subst h; exact ⟨_, extractStage_absent⟩
      · subst h; exact ⟨_, extractStage_dataError d e⟩
      · subst h; exact ⟨_, extractStage_lt d hd⟩
  · intro k hk
    cases sec with
    | absent => rw [extractStage_absent] at hk; cases hk
    | found d dumpErr =>
      cases dumpErr with
      | some e2 => rw [extractStage_dataError d e2] at hk; cases hk
      | none =>
        by_cases hd : d.length < 1024
        · rw [extractStage_lt d hd] at hk; cases hk
        · rw [extractStage_ok d (by omega)] at hk; cases hk

/-- C7, amended, at sections of 1023 and of 1024 bytes read without error, and at
a section whose read ends in `EOF`. -/
theorem extractStage_fails_iff_short_witness :
    extractStage (.found (List.replicate 1023 0) none)
      = .error (.sliceBoundsCap (if (List.replicate 1023 0).length < 24 then 24 else 1024)
          (List.replicate 1023 0).length) ∧
    (∃ seed block, extractStage (.found (List.replicate 1024 0) none) = .ok (seed, block) ∧
        seed.bytes = ((List.replicate 1024 0).drop 16).take 8 ∧ seed.bytes.length = 8 ∧
        block.bytes = ((List.replicate 1024 0).drop 24).take 1000 ∧ block.bytes.length = 1000) ∧
    extractStage (.found (List.replicate 512 0) (some ⟨"EOF"⟩)) = .error (.dataError ⟨"EOF"⟩) :=
  ⟨(extractStage_fails_iff_short (.found (List.replicate 1023 0) none)).2.2.1 _ rfl
      (by rw [List.length_replicate]; decide),
    (extractStage_fails_iff_short (.found (List.replicate 1024 0) none)).2.2.2.1 _ rfl
      (Nat.le_of_eq (List.length_replicate _ _).symm),
    (extractStage_fails_iff_short (.found (List.replicate 512 0) (some ⟨"EOF"⟩))).2.1 _ _ rfl⟩

/-- C8 as stated fails: a key of 257 bytes is not empty, and `rc4decrypt` under it
panics with `KeySizeError(257)` instead of returning. -/
theorem rc4decrypt_long_key_panics :
    List.replicate 257 0x41 ≠ [] ∧
    rc4decrypt (List.replicate 257 0x41) [1, 2, 3] = .error (.keySizeError 257) ∧
    ¬ ∃ out, rc4decrypt (List.replicate 257 0x41) [1, 2, 3] = .ok out ∧ out.length = 3 := by
  have h : rc4decrypt (List.replicate 257 0x41) [1, 2, 3] = .error (.keySizeError 257) := by
    have := rc4decrypt_of_error (List.replicate 257 0x41) [1, 2, 3]
      (by rw [List.length_replicate]; decide)
    rw [List.length_replicate] at this
    exact this
  refine ⟨?_, h, ?_⟩
  · intro h0
    have := congrArg List.length h0
    rw [List.length_replicate] at this
    cases this
  rintro ⟨out, ho, _⟩
  rw [h] at ho
  cases ho

/-- C8, amended: for a key of 1 to 256 bytes and a ciphertext of any length
`rc4decrypt` returns, and its result has the length of the ciphertext. -/
theorem rc4decrypt_returns (k c : List Nat) (h1 : 1 ≤ k.length) (h2 : k.length ≤ 256) :
    ∃ out, rc4decrypt k c = .ok out ∧ out.length = c.length := by
  obtain ⟨ci, hc⟩ := NewCipher_ok k h1 h2
  exact ⟨_, rc4decrypt_of_NewCipher k c ci hc, XORKeyStream_length ci c⟩

/-- C8, amended, at a key of 256 bytes and a ciphertext of 1000 bytes. -/
theorem rc4decrypt_returns_witness :
    ∃ out, rc4decrypt (List.replicate 256 7) (List.replicate 1000 0) = .ok out
      ∧ out.length = (List.replicate 1000 0).length :=
  rc4decrypt_returns (List.replicate 256 7) (List.replicate 1000 0)
    (by rw [List.length_replicate]; decide) (Nat.le_of_eq (List.length_replicate _ _))

/-- C9: for an 8-byte seed `s` the key is the first 5 bytes of the SHA-1 digest of
`s`: the digest has 20 bytes and, the padded seed being one 64-byte chunk, is the
block function applied once to the initial values, the function that maps `abc`
to the digest `a9993e36 ... 9cd0d89d`.  The key has 5 bytes, each below 256,
whatever `s` holds; `rc4.NewCipher` accepts it, so `rc4decrypt` under it
returns; the decryption stage on a section whose bytes 16 to 24 are `s` runs
`rc4decrypt` under this key; and no run of the decryption stage, or of the whole
pipeline, ends in a key-size error. -/
theorem deriveKey_five_bytes (s : List Nat) (hs : s.length = 8) :
    deriveKey s = (sha1Sum s).take 5 ∧ (sha1Sum s).length = 20 ∧ (deriveKey s).length = 5 ∧
    sha1Sum s =
      putUint32 (sha1Block sha1Init
          (s ++ 0x80 :: (List.replicate 47 0 ++ [0, 0, 0, 0, 0, 0, 0, 0x40]))).a
        ++ putUint32 (sha1Block sha1Init
          (s ++ 0x80 :: (List.replicate 47 0 ++ [0, 0, 0, 0, 0, 0, 0, 0x40]))).b
        ++ putUint32 (sha1Block sha1Init
          (s ++ 0x80 :: (List.replicate 47 0 ++ [0, 0, 0, 0, 0, 0, 0, 0x40]))).c
        ++ putUint32 (sha1Block sha1Init
          (s ++ 0x80 :: (List.replicate 47 0 ++ [0, 0, 0, 0, 0, 0, 0, 0x40]))).d
        ++ putUint32 (sha1Block sha1Init
          (s ++ 0x80 :: (List.replicate 47 0 ++ [0, 0, 0, 0, 0, 0, 0, 0x40]))).e ∧
    sha1Sum (ascii "abc")
      = [0xa9, 0x99, 0x3e, 0x36, 0x47, 0x06, 0x81, 0x6a, 0xba, 0x3e,
         0x25, 0x71, 0x78, 0x50, 0xc2, 0x6c, 0x9c, 0xd0, 0xd8, 0x9d] ∧
    (∀ b ∈ deriveKey s, b < 256) ∧
    (∃ c, NewCipher (deriveKey s) = .ok c) ∧
    (∀ data, ∃ out, rc4decrypt (deriveKey s) data = .ok out) ∧
    (∀ d, 1024 ≤ d.length → (d.drop 16).take 8 = s →
      decryptStage (.found d none)
        = rc4decryptSlice (deriveKey s) ⟨(d.drop 24).take 1000, d.drop 1024⟩) ∧
    (∀ sec k, decryptStage sec ≠ .error (.keySizeError k)) ∧
    (∀ sec sha k, main sec sha ≠ .error (.keySizeError k)) := by
  have hlen := deriveKey_length s
  have hok : ∀ t : List Nat, ∃ c, NewCipher (deriveKey t) = .ok c := fun t =>
    NewCipher_ok _ (by rw [deriveKey_length]; decide) (by rw [deriveKey_length]; decide)
  have hstage : ∀ (sec : SectionLookup) (k : Nat),
      decryptStage sec ≠ .error (.keySizeError k) := by
    intro sec k
    cases sec with
    | absent => simp [decryptStage, extractStage_absent]
    | found d dumpErr =>
      cases dumpErr with
      | some e => simp [decryptStage, extractStage_dataError]
      | none =>
        by_cases hd : d.length < 1024
        · simp [decryptStage, extractStage_lt d hd]
        · rw [decryptStage_ok d (by omega)]
          obtain ⟨c, hc⟩ := hok ((d.drop 16).take 8)
          simp [rc4decryptSlice, rc4decrypt_of_NewCipher _ _ c hc, Except.map]
  refine ⟨rfl, sha1Sum_length s, hlen, sha1Sum_of_length_eight s hs, sha1Sum_vector, ?_, hok s,
    ?_, ?_, hstage, ?_⟩
  · intro b hb
    exact sha1Sum_lt s b (List.mem_of_mem_take hb)
  · intro data
    obtain ⟨c, hc⟩ := hok s
    exact ⟨_, rc4decrypt_of_NewCipher _ data c hc⟩
  · intro d hd hseed
    rw [decryptStage_ok d hd, hseed]
  · intro sec sha k hmain
    unfold main at hmain
    cases hst : decryptStage sec with
    | error e =>
      rw [hst] at hmain
      injection hmain with hmain
      exact hstage sec k (by rw [hst, hmain])
    | ok pt =>
      rw [hst] at hmain
      have := decodeConfig_error_isSliceBounds _ _ _ hmain
      cases this

set_option maxRecDepth 1000000 in
/-- C9 at the seed `1 .. 8`, whose SHA-1 digest is
`dd5783bcf1e9002bc00ad5b83a95ed6e4ebb4ad5` and whose key is `dd 57 83 bc f1`. -/
theorem deriveKey_five_bytes_witness :
    deriveKey [1, 2, 3, 4, 5, 6, 7, 8] = [0xdd, 0x57, 0x83, 0xbc, 0xf1] ∧
    sha1Sum [1, 2, 3, 4, 5, 6, 7, 8]
      = [0xdd, 0x57, 0x83, 0xbc, 0xf1, 0xe9, 0x00, 0x2b, 0xc0, 0x0a,
         0xd5, 0xb8, 0x3a, 0x95, 0xed, 0x6e, 0x4e, 0xbb, 0x4a, 0xd5] ∧
    (deriveKey [1, 2, 3, 4, 5, 6, 7, 8]).length = 5 ∧
    (∃ c, NewCipher (deriveKey [1, 2, 3, 4, 5, 6, 7, 8]) = .ok c) :=
  ⟨(deriveKey_five_bytes [1, 2, 3, 4, 5, 6, 7, 8] rfl).1.trans (by decide),
    (deriveKey_five_bytes [1, 2, 3, 4, 5, 6, 7, 8] rfl).2.2.2.1.trans (by decide),
    (deriveKey_five_bytes [1, 2, 3, 4, 5, 6, 7, 8] rfl).2.2.1,
    (deriveKey_five_bytes [1, 2, 3, 4, 5, 6, 7, 8] rfl).2.2.2.2.2.2.1⟩

set_option maxRecDepth 100000 in
/-- C10 as stated fails: for the configuration with campaign `CAMPAIGN12345678`
and the single C2 entry backslash, `u00`, NUL, `00`, which decoding returns for
the plaintext made of these 23 bytes, the marshalled text holds backslash,
backslash, `u00`, the NUL escape, `00`; deleting the NUL escape joins the rest
into backslash, backslash, `u0000`, so the persisted text contains the six bytes
of the NUL escape. -/
theorem persistedJSON_contains_nulEscape :
    decodeConfig ⟨ascii "CAMPAIGN12345678\\u00\x0000", []⟩ (ascii "e3b0c44298fc1c14")
      = .ok ⟨ascii "CAMPAIGN12345678", [ascii "\\u00\x0000"], ascii "e3b0c44298fc1c14"⟩ ∧
    persistedJSON ⟨ascii "CAMPAIGN12345678", [ascii "\\u00\x0000"], ascii "e3b0c44298fc1c14"⟩
      = ascii ("\x7b\"campaign\":\"CAMPAIGN12345678\",\"c2Servers\":[\"\\\\u0000\"]," ++
          "\"sampleSHA256\":\"e3b0c44298fc1c14\"\x7d") ∧
    nulEscape <:+:
      persistedJSON ⟨ascii "CAMPAIGN12345678", [ascii "\\u00\x0000"], ascii "e3b0c44298fc1c14"⟩ := by
  decide

/-- C10, amended: for a configuration none of whose strings holds a backslash
byte, the persisted JSON text has no occurrence of the six bytes of the NUL
escape. -/
theorem persistedJSON_no_nulEscape (cfg : hancitorConfig) (h1 : 0x5C ∉ cfg.Campaign)
    (h2 : ∀ e ∈ cfg.C2, 0x5C ∉ e) (h3 : 0x5C ∉ cfg.SampleSHA256) :
    ¬ nulEscape <:+: persistedJSON cfg :=
  ((jsonMarshal_tokenized cfg h1 h2 h3).replaceAll _ (Nat.le_refl _)).nulEscape_absent

/-- C10, amended, at a configuration whose campaign and C2 entry hold NUL bytes. -/
theorem persistedJSON_no_nulEscape_witness :
    ¬ nulEscape <:+: persistedJSON
      ⟨ascii "CAMP\x00IGN", [ascii "http://a.test\x00\x00", ascii "b"], ascii "e3b0c44298fc1c14"⟩ :=
  persistedJSON_no_nulEscape
    ⟨ascii "CAMP\x00IGN", [ascii "http://a.test\x00\x00", ascii "b"], ascii "e3b0c44298fc1c14"⟩
    (by decide) (by decide) (by decide)

end Hanconfig
